import Mathlib

/-!
Shallow embedding of the artifact-grouping and eviction-policy engine of
cargo-sweep (src/fingerprint.rs), together with theorems that settle the
specification claims about it.

Filenames are modelled as `String`, durations and byte counts as `Nat`,
and the parts of the filesystem the engine inspects as explicit data
(`FsEntry`, `Profile`, `Root`).  Each definition carries a comment naming
the source function it embeds.
-/

/-- Rust `char::is_ascii_hexdigit`: 0-9, a-f or A-F. -/
def isAsciiHexDigit (c : Char) : Bool :=
  c.isDigit || (('a' ≤ c) && (c ≤ 'f')) || (('A' ≤ c) && (c ≤ 'F'))

/-- Embeds `hash_from_path_name` (fingerprint.rs:41).  The Rust code takes
`filename.split('.').next()` (the text before the first dot) as the stem and
`stem.rsplit('-').next()` (the maximal dash-free suffix) as the hash
candidate; it rejects when no dash was found (the suffix is the whole stem),
when a character is not a hex digit, or when the length is not 16. -/
def hash_from_path_name (filename : String) : Option String :=
  let name := filename.toList.takeWhile (fun c => c ≠ '.')
  let hash := (name.reverse.takeWhile (fun c => c ≠ '-')).reverse
  if hash.length = name.length then none
  else if !hash.all isAsciiHexDigit then none
  else if hash.length ≠ 16 then none
  else some (String.mk hash)

/-- Split a character list at every occurrence of `sep`, like Rust
`str::split`: the empty list splits to one empty segment, and a trailing
separator produces a trailing empty segment. -/
def splitOnChar (sep : Char) : List Char → List (List Char)
  | [] => [[]]
  | c :: rest =>
    match splitOnChar sep rest with
    | [] => [[]]
    | s :: ss => if c = sep then [] :: s :: ss else (c :: s) :: ss

/-- Modelled from the wording of claim C1: strip a single (the final)
extension from the filename, take the maximal dash-free suffix of the
remaining stem, and accept only when that suffix is 16 hex characters and a
dash genuinely separated it from a non-empty preceding name. -/
def extractClaimC1 (filename : String) : Option String :=
  let cs := filename.toList
  let parts := splitOnChar '.' cs
  let stem := if parts.length ≤ 1 then cs else List.intercalate ['.'] parts.dropLast
  let suffix := (stem.reverse.takeWhile (fun c => c ≠ '-')).reverse
  if suffix.length + 2 ≤ stem.length && suffix.all isAsciiHexDigit &&
      suffix.length = 16 then
    some (String.mk suffix)
  else none

/-- Modelled from the amended claim C1, following the code: the stem is the
text before the first dot (everything from the first dot on is ignored);
extraction succeeds exactly when the stem contains a dash and its maximal
dash-free suffix is 16 hex characters; the preceding name may be empty. -/
def extractAmendedC1 (filename : String) : Option String :=
  let stem := filename.toList.takeWhile (fun c => c ≠ '.')
  let suffix := (stem.reverse.takeWhile (fun c => c ≠ '-')).reverse
  if ('-' ∈ stem) ∧ suffix.all isAsciiHexDigit = true ∧ suffix.length = 16 then
    some (String.mk suffix)
  else none

/-- One immediate entry of a scanned directory.  A `file` carries its byte
size, its elapsed-since-last-access time, whether `remove_file` would
succeed on it, whether opening and reading it succeeds, and the toolchain
hash its contents deserialize to when they parse as a fingerprint record
(`none` when deserialization fails).  A `dir` carries its entries, access
time and whether `remove_dir_all` would succeed.  An `other` entry is
neither a file nor a directory (for example a dangling symlink). -/
inductive FsEntry where
  | file (name : String) (size accessed : Nat) (removable readable : Bool)
      (parsed : Option Nat)
  | dir (name : String) (entries : List FsEntry) (accessed : Nat) (removable : Bool)
  | other (name : String) (accessed : Nat)

/-- The file name of an entry, as returned by `path.file_name()`. -/
def FsEntry.name : FsEntry → String
  | .file n _ _ _ _ _ => n
  | .dir n _ _ _ => n
  | .other n _ => n

/-- Elapsed time since the entry was last accessed, as obtained from
`metadata.accessed().elapsed()` (an access time in the future is already
collapsed to 0 by `unwrap_or`). -/
def FsEntry.accessed : FsEntry → Nat
  | .file _ _ a _ _ _ => a
  | .dir _ _ a _ => a
  | .other _ a => a

/-- Whether deleting the entry would succeed; irrelevant for `other`
entries, which the sweep never tries to delete. -/
def FsEntry.removable : FsEntry → Bool
  | .file _ _ _ r _ _ => r
  | .dir _ _ _ r => r
  | .other _ _ => true

/-- True for entries that are neither a file nor a directory. -/
def FsEntry.isOther : FsEntry → Bool
  | .other _ _ => true
  | _ => false

mutual

/-- Bytes a single entry contributes to `total_disk_space_dir`
(fingerprint.rs:171): a file contributes its length, a directory the
recursive sum of the regular files below it, anything else nothing. -/
def entrySize : FsEntry → Nat
  | .file _ s _ _ _ _ => s
  | .dir _ es _ _ => sizeList es
  | .other _ _ => 0

/-- Embeds `total_disk_space_dir` (fingerprint.rs:171): the walkdir sum of
the sizes of all regular files under a directory. -/
def sizeList : List FsEntry → Nat
  | [] => 0
  | e :: es => entrySize e + sizeList es

end

/-- Embeds `last_used_time` (fingerprint.rs:109): the minimum
elapsed-since-access time over the immediate entries of a fingerprint unit
directory, starting from 100 years (3155760000 seconds). -/
def last_used_time (entries : List FsEntry) : Nat :=
  entries.foldl (fun best e => if e.accessed < best then e.accessed else best) 3155760000

/-- Models `Path::extension`: the text after the last dot of the name; a
name without a dot, or whose only dot is the leading character, has no
extension. -/
def extensionOf (name : String) : Option String :=
  let cs := name.toList
  if (cs.drop 1).contains '.' then
    some (String.mk ((cs.reverse.takeWhile (fun c => c ≠ '.')).reverse))
  else none

/-- Embeds `Fingerprint::load` (fingerprint.rs:63): scan the unit directory
for entries with extension `json`; opening one that cannot be read (or is
not a regular file) aborts with an error via `?`; the first one whose
contents deserialize returns its `rustc` hash; a `json` file that fails to
deserialize is skipped.  If nothing succeeds the function reports the
`bail!` error. -/
def Fingerprint.load : List FsEntry → Except String Nat
  | [] => .error "did not fine a fingerprint file"
  | e :: es =>
    match e with
    | .file name _ _ _ readable parsed =>
      if extensionOf name = some "json" then
        if !readable then .error "io error"
        else
          match parsed with
          | some r => .ok r
          | none => Fingerprint.load es
      else Fingerprint.load es
    | .dir name _ _ _ =>
      if extensionOf name = some "json" then .error "io error"
      else Fingerprint.load es
    | .other name _ =>
      if extensionOf name = some "json" then .error "io error"
      else Fingerprint.load es

/-- Embeds `load_all_fingerprints_built_with` (fingerprint.rs:81): for every
directory entry of the `.fingerprint` directory, keep its extracted hash
when the loaded fingerprint is in the installed set or when loading fails
(`.map(..).unwrap_or(true)` defaults to keeping). -/
def load_all_fingerprints_built_with (installed : List Nat) (fpDir : List FsEntry) :
    List String :=
  fpDir.filterMap fun e =>
    match e with
    | .dir name sub _ _ =>
      match Fingerprint.load sub with
      | .ok r => if r ∈ installed then hash_from_path_name name else none
      | .error _ => hash_from_path_name name
    | _ => none

/-- Embeds `load_all_fingerprints_newer_than` (fingerprint.rs:147): keep the
hash of every unit directory whose last-used elapsed time is strictly below
the cutoff. -/
def load_all_fingerprints_newer_than (cutoff : Nat) (fpDir : List FsEntry) :
    List String :=
  fpDir.filterMap fun e =>
    match e with
    | .dir name sub _ _ =>
      if last_used_time sub < cutoff then hash_from_path_name name else none
    | _ => none

/-- Lexicographic comparison of character lists, standing in for the Rust
byte-wise `Ord` on `String` (the names compared here are ASCII). -/
def charListLt : List Char → List Char → Bool
  | [], [] => false
  | [], _ :: _ => true
  | _ :: _, [] => false
  | a :: as, b :: bs => a < b || (a = b && charListLt as bs)

/-- Insert into a list sorted by `le`; used to model the Rust sorts.  The
comparators used here are total orders whose ties only occur between equal
elements, so any correct sort produces the list the Rust sorts produce. -/
def insertSorted {α : Type} (le : α → α → Bool) (x : α) : List α → List α
  | [] => [x]
  | y :: ys => if le x y then x :: y :: ys else y :: insertSorted le x ys

/-- Insertion sort by `le`. -/
def sortByLe {α : Type} (le : α → α → Bool) : List α → List α
  | [] => []
  | x :: xs => insertSorted le x (sortByLe le xs)

/-- Ordering on (last-used, hash) pairs: the derived lexicographic `Ord`
on `(Duration, String)` used by `keep.sort_unstable()`. -/
def pairLe (a b : Nat × String) : Bool :=
  a.1 < b.1 || (a.1 = b.1 && !charListLt b.2.toList a.2.toList)

/-- Embeds `load_all_fingerprints_by_time` (fingerprint.rs:124): pair every
unit directory hash with its last-used elapsed time and sort. -/
def load_all_fingerprints_by_time (fpDir : List FsEntry) : List (Nat × String) :=
  sortByLe pairLe
    (fpDir.filterMap fun e =>
      match e with
      | .dir name sub _ _ =>
        (hash_from_path_name name).map fun h => (last_used_time sub, h)
      | _ => none)

/-- Embeds `remove_not_matching_in_a_dir` (fingerprint.rs:206).  Walks the
immediate entries of a directory; an entry whose name extracts to a hash
outside the keep set has its size added to the running total and, unless
`dry_run`, is deleted (file removal for files, recursive removal for
directories); a failed deletion is only logged, so the entry stays but its
size was already counted.  Entries that are neither file nor directory, and
entries without an extractable hash, are untouched.  Returns the surviving
entries and the freed total. -/
def remove_not_matching_in_a_dir (keep : List String) (dry_run : Bool) :
    List FsEntry → List FsEntry × Nat
  | [] => ([], 0)
  | e :: es =>
    let rest := remove_not_matching_in_a_dir keep dry_run es
    match hash_from_path_name e.name with
    | none => (e :: rest.1, rest.2)
    | some h =>
      if h ∈ keep then (e :: rest.1, rest.2)
      else
        match e with
        | .file _ size _ removable _ _ =>
          if dry_run then (e :: rest.1, size + rest.2)
          else if removable then (rest.1, size + rest.2)
          else (e :: rest.1, size + rest.2)
        | .dir _ sub _ removable =>
          if dry_run then (e :: rest.1, sizeList sub + rest.2)
          else if removable then (rest.1, sizeList sub + rest.2)
          else (e :: rest.1, sizeList sub + rest.2)
        | .other _ _ => (e :: rest.1, rest.2)

/-- Adds `s` to the entry of `h` in an association list, creating the entry
when absent: `*disk_space.entry(hash).or_default() += size`. -/
def bumpEntry (m : List (String × Nat)) (h : String) (s : Nat) : List (String × Nat) :=
  match m with
  | [] => [(h, s)]
  | (k, v) :: rest => if k = h then (k, v + s) :: rest else (k, v) :: bumpEntry rest h s

/-- Lookup with default 0: `sizes.get(&hash).unwrap_or(&0)`. -/
def mapGet (m : List (String × Nat)) (h : String) : Nat :=
  match m with
  | [] => 0
  | (k, v) :: rest => if k = h then v else mapGet rest h

/-- Embeds `total_disk_space_by_hash_in_a_dir` (fingerprint.rs:180): add to
the accumulator, keyed by extracted hash, the size of every immediate entry
whose name extracts to a hash; a hash-named entry that is neither a file
nor a directory hits `panic!`, modelled as `none`. -/
def total_disk_space_by_hash_in_a_dir :
    List FsEntry → List (String × Nat) → Option (List (String × Nat))
  | [], m => some m
  | e :: es, m =>
    match hash_from_path_name e.name with
    | none => total_disk_space_by_hash_in_a_dir es m
    | some h =>
      match e with
      | .file _ s _ _ _ _ => total_disk_space_by_hash_in_a_dir es (bumpEntry m h s)
      | .dir _ sub _ _ => total_disk_space_by_hash_in_a_dir es (bumpEntry m h (sizeList sub))
      | .other _ _ => none

/-- One build profile directory: the `.fingerprint` marker directory, the
tracked `build` and `deps` directories, the legacy `native` directory when
present, and the loose entries of the profile root (the fixed-name tracked
subdirectories themselves never extract to a hash, so listing them apart is
faithful). -/
structure Profile where
  fingerprintDir : List FsEntry
  buildDir : List FsEntry
  depsDir : List FsEntry
  nativeDir : Option (List FsEntry)
  rootEntries : List FsEntry

/-- Total bytes on disk under one profile. -/
def profTotal (p : Profile) : Nat :=
  sizeList p.fingerprintDir + sizeList p.buildDir + sizeList p.depsDir +
    (match p.nativeDir with
     | some es => sizeList es
     | none => 0) +
    sizeList p.rootEntries

/-- Embeds `total_disk_space_in_a_profile` (fingerprint.rs:249): size
accounting over `.fingerprint`, `build`, `deps`, `native` when it exists,
and the profile root. -/
def total_disk_space_in_a_profile (p : Profile) : Option (List (String × Nat)) :=
  match total_disk_space_by_hash_in_a_dir p.fingerprintDir [] with
  | none => none
  | some m1 =>
    match total_disk_space_by_hash_in_a_dir p.buildDir m1 with
    | none => none
    | some m2 =>
      match total_disk_space_by_hash_in_a_dir p.depsDir m2 with
      | none => none
      | some m3 =>
        match
          (match p.nativeDir with
           | some es => total_disk_space_by_hash_in_a_dir es m3
           | none => some m3) with
        | none => none
        | some m4 => total_disk_space_by_hash_in_a_dir p.rootEntries m4

/-- Embeds `remove_not_built_with_in_a_profile` (fingerprint.rs:266): sweep
`build`, `deps`, `native` when present, the profile root and `.fingerprint`
against one keep set, returning the surviving profile and the freed total. -/
def remove_not_built_with_in_a_profile (p : Profile) (keep : List String)
    (dry_run : Bool) : Profile × Nat :=
  let b := remove_not_matching_in_a_dir keep dry_run p.buildDir
  let d := remove_not_matching_in_a_dir keep dry_run p.depsDir
  let n :=
    match p.nativeDir with
    | some es =>
      let r := remove_not_matching_in_a_dir keep dry_run es
      (some r.1, r.2)
    | none => (none, 0)
  let rt := remove_not_matching_in_a_dir keep dry_run p.rootEntries
  let f := remove_not_matching_in_a_dir keep dry_run p.fingerprintDir
  (⟨f.1, b.1, d.1, n.1, rt.1⟩, b.2 + d.2 + n.2 + rt.2 + f.2)

/-- Prefix test on character lists, standing in for `str::starts_with`. -/
def listStartsWith : List Char → List Char → Bool
  | [], _ => true
  | _ :: _, [] => false
  | a :: as, b :: bs => a = b && listStartsWith as bs

/-- Embeds `is_custom_toolchain` (fingerprint.rs:303): the empty name and
names that look like a release channel (stable, beta, nightly, optionally
with a dash suffix) or whose first dash-separated segment is a 2 or 3
segment all-numeric version are not custom; everything else is. -/
def is_custom_toolchain (toolchain : String) : Bool :=
  if toolchain.isEmpty then false
  else
    let is_named_channel := ["stable", "beta", "nightly"].any fun channel =>
      toolchain = channel || listStartsWith (String.append channel "-").toList toolchain.toList
    if is_named_channel then false
    else
      let first_segment := toolchain.toList.takeWhile (fun c => c ≠ '-')
      let segs := splitOnChar '.' first_segment
      let all_numbers := segs.all fun s => !s.isEmpty && s.all Char.isDigit
      let is_versioned := all_numbers && (segs.length = 2 || segs.length = 3)
      !is_versioned

/-- One invocation of `rustc [+toolchain] -vV` as `lookup_from_names`
observes it: the requested toolchain name (`none` for the bare default
compiler), whether the query succeeded, the two hashes of its stdout
(current and pre-1.85 scheme), and the text used in the failure message. -/
structure ToolchainQuery where
  name : Option String
  success : Bool
  outHash : Nat
  outHashOld : Nat
  errMsg : String

/-- Set-insert into the model of the `HashSet<u64>`. -/
def insertNat (s : List Nat) (x : Nat) : List Nat :=
  if x ∈ s then s else x :: s

/-- The loop of `lookup_from_names` (fingerprint.rs:333): a successful query
inserts both hashes; a failed query is skipped when its name is custom and
otherwise aborts with `bail!`. -/
def lookupGo : List ToolchainQuery → List Nat → Except String (List Nat)
  | [], acc => .ok acc
  | q :: rest, acc =>
    if q.success then
      lookupGo rest (insertNat (insertNat acc q.outHash) q.outHashOld)
    else if is_custom_toolchain (q.name.getD "") then lookupGo rest acc
    else
      .error (String.append "failed to determine fingerprint for toolchain "
        (String.append (q.name.getD "") q.errMsg))

/-- Embeds `lookup_from_names` (fingerprint.rs:333): the toolchain set
starts from the sentinel 0, then each query is processed in order. -/
def lookup_from_names (qs : List ToolchainQuery) : Except String (List Nat) :=
  lookupGo qs (insertNat [] 0)

/-- Modelled from the wording of claim C7: a name looks standard when it is
one of the channel names stable, beta, nightly, optionally with a dash
suffix, or is a 2-to-3-segment all-numeric version such as 1.60 or 1.60.0. -/
def standardClaimC7 (toolchain : String) : Bool :=
  (["stable", "beta", "nightly"].any fun channel =>
    toolchain = channel || listStartsWith (String.append channel "-").toList toolchain.toList) ||
  (let segs := splitOnChar '.' toolchain.toList
   (segs.all fun s => !s.isEmpty && s.all Char.isDigit) &&
     (segs.length = 2 || segs.length = 3))

/-- Modelled from the amended claim C7: additionally, the empty name (the
default-compiler query) counts as standard, and a dash suffix after the
numeric version is allowed (only the first dash-separated segment must be a
2-to-3-segment all-numeric version). -/
def standardAmendedC7 (toolchain : String) : Bool :=
  toolchain.isEmpty ||
  (["stable", "beta", "nightly"].any fun channel =>
    toolchain = channel || listStartsWith (String.append channel "-").toList toolchain.toList) ||
  (let segs := splitOnChar '.' (toolchain.toList.takeWhile (fun c => c ≠ '-'))
   (segs.all fun s => !s.isEmpty && s.all Char.isDigit) &&
     (segs.length = 2 || segs.length = 3))

/-- A root of the scan: the profiles found by `lookup_all_fingerprint_dirs`
(identified below by their position in this list, standing in for the
distinct `.fingerprint` paths the code keys on), plus the bytes of files
under the root that belong to no profile and are counted by the starting
`total_disk_space_dir` but never touched by any sweep. -/
structure Root where
  profiles : List Profile
  untracked : Nat

/-- Total bytes on disk under the root, as `total_disk_space_dir(path)`
computes it before the size policy runs. -/
def rootTotal (r : Root) : Nat :=
  (r.profiles.map profTotal).sum + r.untracked

/-- One element of the `order` vector of `remove_older_until_fits`:
`(last_used, size, fingerprint-dir, hash)`, the directory being identified
by the profile index. -/
structure OrderEntry where
  lastUsed : Nat
  size : Nat
  dirIdx : Nat
  hash : String

/-- The derived lexicographic ordering `order.sort()` uses on
`(Duration, u64, &Path, String)`. -/
def orderLe (a b : OrderEntry) : Bool :=
  a.lastUsed < b.lastUsed ||
    (a.lastUsed = b.lastUsed &&
      (a.size < b.size ||
        (a.size = b.size &&
          (a.dirIdx < b.dirIdx ||
            (a.dirIdx = b.dirIdx && !charListLt b.hash.toList a.hash.toList)))))

/-- Builds the `order` vector (fingerprint.rs:489-502): for each profile,
size its artifacts (propagating the sizing panic as `none`) and emit one
entry per fingerprint unit, with `sizes.get(&hash).unwrap_or(&0)`. -/
def buildOrderGo : Nat → List Profile → Option (List OrderEntry)
  | _, [] => some []
  | i, p :: ps =>
    match total_disk_space_in_a_profile p with
    | none => none
    | some sizes =>
      match buildOrderGo (i + 1) ps with
      | none => none
      | some rest =>
        some
          (((load_all_fingerprints_by_time p.fingerprintDir).map fun lu_h =>
              OrderEntry.mk lu_h.1 (mapGet sizes lu_h.2) i lu_h.2) ++ rest)

/-- The selection loop of `remove_older_until_fits` (fingerprint.rs:517),
run over the sorted order reversed (oldest first): evict a unit (skipping
it) while the evicted total would stay below the excess, and put every
other unit into the keep structure.  The code records `(dir, hash)` pairs;
keeping the whole entry retains the same information. -/
def planLoop (need : Nat) : Nat → List OrderEntry → Nat × List OrderEntry
  | removed, [] => (removed, [])
  | removed, t :: rest =>
    if removed + t.size < need then planLoop need (removed + t.size) rest
    else
      let r := planLoop need removed rest
      (r.1, t :: r.2)

/-- The hashes the plan keeps for profile `i` (the keep set `organized`
holds for that fingerprint directory, defaulting to empty). -/
def keepFor (kept : List OrderEntry) (i : Nat) : List String :=
  kept.filterMap fun t => if t.dirIdx = i then some t.hash else none

/-- The final loop of `remove_older_until_fits` (fingerprint.rs:535): sweep
every profile against its keep set, accumulating freed bytes. -/
def sweepProfiles (kept : List OrderEntry) (dry_run : Bool) :
    Nat → List Profile → List Profile × Nat
  | _, [] => ([], 0)
  | i, p :: ps =>
    let r := remove_not_built_with_in_a_profile p (keepFor kept i) dry_run
    let rest := sweepProfiles kept dry_run (i + 1) ps
    (r.1 :: rest.1, r.2 + rest.2)

/-- Embeds `remove_older_until_fits` (fingerprint.rs:479): no-op when the
starting size already fits the target; otherwise build and sort the order
vector, select what to keep walking it oldest-first, and sweep every
profile, returning the freed bytes and the resulting tree. -/
def remove_older_until_fits (root : Root) (target_size : Nat) (dry_run : Bool) :
    Option (Nat × Root) :=
  let starting_size := rootTotal root
  if starting_size ≤ target_size then some (0, root)
  else
    match buildOrderGo 0 root.profiles with
    | none => none
    | some order =>
      let sorted := sortByLe orderLe order
      let plan := planLoop (starting_size - target_size) 0 sorted.reverse
      let swept := sweepProfiles plan.2 dry_run 0 root.profiles
      some (swept.2, ⟨swept.1, root.untracked⟩)

/-- Characterization of the entries surviving a real (non dry-run) sweep:
entries without an extractable hash, entries whose hash is kept, entries
whose deletion fails, and entries that are neither file nor directory. -/
def survivesReal (keep : List String) (e : FsEntry) : Bool :=
  match hash_from_path_name e.name with
  | none => true
  | some h => decide (h ∈ keep) || !e.removable || e.isOther

/-- The bytes a sweep of one directory counts: the sizes of the file and
directory entries whose hash extracts and is outside the keep set. -/
def freedSum (keep : List String) : List FsEntry → Nat
  | [] => 0
  | e :: es =>
    (match hash_from_path_name e.name with
     | none => 0
     | some h => if h ∈ keep then 0 else entrySize e) + freedSum keep es

/-- Total size of the entries of one directory whose name extracts to the
given hash. -/
def hashTotal (h : String) : List FsEntry → Nat
  | [] => 0
  | e :: es =>
    (if hash_from_path_name e.name = some h then entrySize e else 0) + hashTotal h es

/-- Sum of `hashTotal` over a list of hashes. -/
def sumHashTotals (es : List FsEntry) : List String → Nat
  | [] => 0
  | h :: hs => hashTotal h es + sumHashTotals es hs

/-- The bytes a sweep of a whole profile counts against one keep set. -/
def profFreedSum (p : Profile) (keep : List String) : Nat :=
  freedSum keep p.buildDir + freedSum keep p.depsDir +
    (match p.nativeDir with
     | some es => freedSum keep es
     | none => 0) +
    freedSum keep p.rootEntries + freedSum keep p.fingerprintDir

/-- Total size of the entries of a profile carrying the given hash, over
all five tracked directories. -/
def profHashTotal (p : Profile) (h : String) : Nat :=
  hashTotal h p.buildDir + hashTotal h p.depsDir +
    (match p.nativeDir with
     | some es => hashTotal h es
     | none => 0) +
    hashTotal h p.rootEntries + hashTotal h p.fingerprintDir

/-- Sum of `profHashTotal` over a list of hashes. -/
def sumProfHashTotals (p : Profile) : List String → Nat
  | [] => 0
  | h :: hs => profHashTotal p h + sumProfHashTotals p hs

/-- Every entry of the directory can actually be deleted. -/
def allRemovable (es : List FsEntry) : Bool :=
  es.all fun e => e.removable

/-- Every entry of every tracked directory of the profile can be deleted. -/
def profAllRemovable (p : Profile) : Bool :=
  allRemovable p.fingerprintDir && allRemovable p.buildDir && allRemovable p.depsDir &&
    (match p.nativeDir with
     | some es => allRemovable es
     | none => true) &&
    allRemovable p.rootEntries

/-- Total size of a list of order entries. -/
def sumSizes (l : List OrderEntry) : Nat :=
  (l.map OrderEntry.size).sum

/-- The order entries belonging to profile `i`. -/
def tuplesFor (l : List OrderEntry) (i : Nat) : List OrderEntry :=
  l.filter fun t => t.dirIdx = i

/-- Concrete root used against claim C4: one profile whose single unit owns
10 bytes in deps (and an empty-sized unit directory), plus a 100 byte file
with no extractable identity at the profile root. -/
def c4Root : Root :=
  Root.mk
    [Profile.mk
      [FsEntry.dir "x-aaaaaaaaaaaaaaaa"
        [FsEntry.file "f.json" 0 50 true true (some 0)] 50 true]
      []
      [FsEntry.file "x-aaaaaaaaaaaaaaaa" 10 50 true true none]
      none
      [FsEntry.file "bigfile" 100 1 true true none]]
    0

/-- The tree c4Root leaves behind after a real size-policy run with
target 0. -/
def c4RootAfter : Root :=
  Root.mk
    [Profile.mk [] [] [] none [FsEntry.file "bigfile" 100 1 true true none]]
    0

/-- Concrete root used in the C4 witness: a single 10 byte unit and no
unattributable bytes. -/
def c4WitnessRoot : Root :=
  Root.mk
    [Profile.mk
      [FsEntry.dir "a-aaaaaaaaaaaaaaaa"
        [FsEntry.file "f.json" 0 50 true true (some 0)] 50 true]
      []
      [FsEntry.file "x-aaaaaaaaaaaaaaaa" 10 50 true true none]
      none
      []]
    0

theorem length_takeWhile_le_local {α : Type} (p : α → Bool) :
    ∀ l : List α, (l.takeWhile p).length ≤ l.length := by
  intro l
  induction l with
  | nil => simp [List.takeWhile]
  | cons c cs ih =>
    by_cases h : p c = true
    · simp [List.takeWhile, h]; omega
    · simp [List.takeWhile, h]

theorem length_takeWhile_eq_iff {α : Type} (p : α → Bool) :
    ∀ l : List α, ((l.takeWhile p).length = l.length ↔ ∀ c ∈ l, p c = true) := by
  intro l
  induction l with
  | nil => simp
  | cons c cs ih =>
    cases h : p c with
    | true => simp [List.takeWhile_cons, h, ih]
    | false =>
      simp only [List.takeWhile_cons, h]
      simp only [Bool.false_eq_true, if_false, List.length_nil, List.length_cons]
      constructor
      · intro hlen
        exact absurd hlen (by omega)
      · intro hall
        exact absurd (hall c (List.mem_cons_self c cs)) (by simp [h])

/-- The maximal dash-free suffix has the length of the whole list exactly
when the list contains no dash. -/
theorem dashfree_suffix_length_eq (cs : List Char) :
    ((cs.reverse.takeWhile (fun c => c ≠ '-')).reverse).length = cs.length ↔
      ¬ ('-' ∈ cs) := by
  rw [List.length_reverse]
  have h1 : (cs.reverse.takeWhile (fun c => decide (c ≠ '-'))).length = cs.reverse.length ↔
      ∀ c ∈ cs.reverse, decide (c ≠ '-') = true :=
    length_takeWhile_eq_iff _ cs.reverse
  rw [List.length_reverse] at h1
  rw [h1]
  simp only [List.mem_reverse, decide_eq_true_eq]
  exact ⟨fun h hm => h _ hm rfl, fun h c hc he => h (he ▸ hc)⟩

/-- The acceptance test of the code (reject when the dash-free suffix spans
the whole stem) agrees with the amended description (accept when the stem
contains a dash), for every stem. -/
theorem code_spec_agree (stem : List Char) :
    (if ((stem.reverse.takeWhile (fun c => c ≠ '-')).reverse).length = stem.length then
       (none : Option String)
     else if !((stem.reverse.takeWhile (fun c => c ≠ '-')).reverse).all isAsciiHexDigit then none
     else if ((stem.reverse.takeWhile (fun c => c ≠ '-')).reverse).length ≠ 16 then none
     else some (String.mk ((stem.reverse.takeWhile (fun c => c ≠ '-')).reverse))) =
    (if ('-' ∈ stem) ∧
        ((stem.reverse.takeWhile (fun c => c ≠ '-')).reverse).all isAsciiHexDigit = true ∧
        ((stem.reverse.takeWhile (fun c => c ≠ '-')).reverse).length = 16 then
       some (String.mk ((stem.reverse.takeWhile (fun c => c ≠ '-')).reverse))
     else none) := by
  have hiff := dashfree_suffix_length_eq stem
  set suf := (stem.reverse.takeWhile (fun c => c ≠ '-')).reverse with hsuf
  clear_value suf
  by_cases hd : '-' ∈ stem
  · have hne : ¬ suf.length = stem.length := fun h => (hiff.mp h) hd
    rw [if_neg hne]
    by_cases ha : suf.all isAsciiHexDigit = true
    · by_cases hl : suf.length = 16
      · rw [if_neg (by simp [ha]), if_neg (by simp [hl]), if_pos ⟨hd, ha, hl⟩]
      · rw [if_neg (by simp [ha]), if_pos (by simp [hl]),
          if_neg (by intro h; exact hl h.2.2)]
    · rw [if_pos (by simp [Bool.not_eq_true] at ha ⊢; exact ha),
        if_neg (by intro h; exact ha h.2.1)]
  · have heq : suf.length = stem.length := hiff.mpr hd
    rw [if_pos heq, if_neg (by intro h; exact hd h.1)]

/-- C1 is false as stated: for the filename "-a1b2c3d4e5f67890.x.y" the code
extracts the identity a1b2c3d4e5f67890, although under the claimed reading
(strip a single extension, require 16 hex characters after the last dash
and a non-empty name before it) nothing should be extracted: after
stripping one extension the stem is "-a1b2c3d4e5f67890.x", whose post-dash
text is not 16 hex characters, and the text before the dash is empty. -/
theorem C1_counterexample :
    hash_from_path_name "-a1b2c3d4e5f67890.x.y" = some "a1b2c3d4e5f67890" ∧
    extractClaimC1 "-a1b2c3d4e5f67890.x.y" = none := ⟨rfl, rfl⟩

/-- C1 (amended): extraction treats the text before the first dot as the
stem (everything from the first dot on is ignored, not just one extension)
and returns the maximal dash-free suffix of the stem exactly when the stem
contains a dash (the preceding name may be empty) and the suffix is 16 hex
characters; in particular "foo-a1b2c3d4e5f67890.rlib" yields
a1b2c3d4e5f67890 while "foo.rlib" and "foo-short.rlib" yield nothing. -/
theorem C1_extract_characterization :
    (∀ f : String, hash_from_path_name f = extractAmendedC1 f) ∧
    hash_from_path_name "foo-a1b2c3d4e5f67890.rlib" = some "a1b2c3d4e5f67890" ∧
    hash_from_path_name "foo.rlib" = none ∧
    hash_from_path_name "foo-short.rlib" = none :=
  ⟨fun f => code_spec_agree (f.toList.takeWhile (fun c => c ≠ '.')), rfl, rfl, rfl⟩

theorem remove_snd_eq_freedSum (keep : List String) (dry : Bool) (es : List FsEntry) :
    (remove_not_matching_in_a_dir keep dry es).2 = freedSum keep es := by
  induction es with
  | nil => rfl
  | cons e es ih =>
    simp only [remove_not_matching_in_a_dir, freedSum]
    cases hh : hash_from_path_name e.name with
    | none => simpa using ih
    | some h =>
      by_cases hk : h ∈ keep
      · simp [hk, ih]
      · cases e with
        | file n s a r rd pr => cases dry <;> cases r <;> simp [hk, ih, entrySize]
        | dir n sub a r => cases dry <;> cases r <;> simp [hk, ih, entrySize]
        | other n a => simp [hk, ih, entrySize]

theorem remove_fst_dry (keep : List String) (es : List FsEntry) :
    (remove_not_matching_in_a_dir keep true es).1 = es := by
  induction es with
  | nil => rfl
  | cons e es ih =>
    simp only [remove_not_matching_in_a_dir]
    cases hh : hash_from_path_name e.name with
    | none => simpa using ih
    | some h =>
      by_cases hk : h ∈ keep
      · simp [hk, ih]
      · cases e <;> simp [hk, ih]

theorem remove_fst_real (keep : List String) (es : List FsEntry) :
    (remove_not_matching_in_a_dir keep false es).1 = es.filter (survivesReal keep) := by
  induction es with
  | nil => rfl
  | cons e es ih =>
    simp only [remove_not_matching_in_a_dir, List.filter_cons]
    cases hh : hash_from_path_name e.name with
    | none => simp [survivesReal, hh, ih]
    | some h =>
      by_cases hk : h ∈ keep
      · simp [survivesReal, hh, hk, ih]
      · cases e with
        | file n s a r rd pr =>
          cases r <;> simp [survivesReal, hh, hk, ih, FsEntry.removable, FsEntry.isOther]
        | dir n sub a r =>
          cases r <;> simp [survivesReal, hh, hk, ih, FsEntry.removable, FsEntry.isOther]
        | other n a =>
          simp [survivesReal, hh, hk, ih, FsEntry.removable, FsEntry.isOther]

theorem filter_noId_of_filter_survives (keep : List String) (es : List FsEntry) :
    (es.filter (survivesReal keep)).filter
        (fun e => (hash_from_path_name e.name).isNone) =
      es.filter (fun e => (hash_from_path_name e.name).isNone) := by
  induction es with
  | nil => rfl
  | cons e es ih =>
    cases hh : hash_from_path_name e.name with
    | none => simp [List.filter_cons, survivesReal, hh, ih]
    | some h =>
      by_cases hs : survivesReal keep e = true
      · simp [List.filter_cons, hs, hh, ih]
      · simp [List.filter_cons, hs, hh, ih]

/-- C5: for every profile and keep set, a dry run and a real run over the
same unmodified tree report the same freed byte total, both for a whole
profile sweep and for the sweep of a single directory. -/
theorem C5_dry_run_total_agrees (p : Profile) (keep : List String) :
    ((remove_not_built_with_in_a_profile p keep true).2 =
      (remove_not_built_with_in_a_profile p keep false).2) ∧
    ∀ es : List FsEntry,
      (remove_not_matching_in_a_dir keep true es).2 =
        (remove_not_matching_in_a_dir keep false es).2 := by
  constructor
  · simp only [remove_not_built_with_in_a_profile]
    cases p.nativeDir <;> simp [remove_snd_eq_freedSum]
  · intro es
    rw [remove_snd_eq_freedSum, remove_snd_eq_freedSum]

/-- C8: the sweep of a directory never deletes and never counts an entry
whose name does not extract to a hash, whatever the keep set and dry-run
flag: the sub-list of such entries survives unchanged, and the counted
total only sums entries with an extracted hash outside the keep set. -/
theorem C8_no_hash_entries_untouched (keep : List String) (dry : Bool)
    (es : List FsEntry) :
    ((remove_not_matching_in_a_dir keep dry es).1.filter
        (fun e => (hash_from_path_name e.name).isNone) =
      es.filter (fun e => (hash_from_path_name e.name).isNone)) ∧
    (remove_not_matching_in_a_dir keep dry es).2 = freedSum keep es := by
  refine ⟨?_, remove_snd_eq_freedSum keep dry es⟩
  cases dry with
  | true => rw [remove_fst_dry]
  | false => rw [remove_fst_real]; exact filter_noId_of_filter_survives keep es

/-- C9: in a real sweep, the fate of every entry depends only on that entry
itself (an entry is deleted exactly when its hash extracts, is not kept and
its own deletion succeeds), so a failed deletion never prevents later
entries from being examined and deleted, and the function still returns the
full counted total. -/
theorem C9_deletion_failure_nonfatal (keep : List String) (es : List FsEntry) :
    ((remove_not_matching_in_a_dir keep false es).1 =
      es.filter (survivesReal keep)) ∧
    (remove_not_matching_in_a_dir keep false es).2 = freedSum keep es :=
  ⟨remove_fst_real keep es, remove_snd_eq_freedSum keep false es⟩

/-- C6: under the toolchain-identity policy, a unit directory whose
fingerprint metadata cannot be loaded (no file parses or reading fails) is
kept whatever the installed identity set: the load error is absorbed by
`unwrap_or(true)` instead of aborting the scan. -/
theorem C6_unloadable_units_kept (installed : List Nat) (fpDir : List FsEntry)
    (name : String) (sub : List FsEntry) (acc : Nat) (rem : Bool) (h : String)
    (hmem : FsEntry.dir name sub acc rem ∈ fpDir)
    (hload : ∃ msg, Fingerprint.load sub = Except.error msg)
    (hhash : hash_from_path_name name = some h) :
    h ∈ load_all_fingerprints_built_with installed fpDir := by
  obtain ⟨msg, hm⟩ := hload
  unfold load_all_fingerprints_built_with
  exact List.mem_filterMap.mpr ⟨FsEntry.dir name sub acc rem, hmem, by simp [hm, hhash]⟩

/-- C6 witness: a unit directory with no metadata file at all is kept even
against an empty identity set. -/
theorem C6_witness :
    "aaaaaaaaaaaaaaaa" ∈ load_all_fingerprints_built_with []
      [FsEntry.dir "x-aaaaaaaaaaaaaaaa" [] 0 true] :=
  C6_unloadable_units_kept [] _ "x-aaaaaaaaaaaaaaaa" [] 0 true "aaaaaaaaaaaaaaaa"
    (List.mem_singleton.mpr rfl) ⟨"did not fine a fingerprint file", rfl⟩ rfl

theorem insertNat_mem (s : List Nat) (x y : Nat) (hy : y ∈ s) : y ∈ insertNat s x := by
  unfold insertNat
  split
  · exact hy
  · exact List.mem_cons_of_mem _ hy

theorem lookupGo_zero (qs : List ToolchainQuery) :
    ∀ acc res, 0 ∈ acc → lookupGo qs acc = Except.ok res → 0 ∈ res := by
  induction qs with
  | nil =>
    intro acc res h0 h
    simp only [lookupGo] at h
    cases h
    exact h0
  | cons q rest ih =>
    intro acc res h0 h
    simp only [lookupGo] at h
    by_cases hs : q.success = true
    · rw [if_pos hs] at h
      exact ih _ _ (insertNat_mem _ _ _ (insertNat_mem _ _ _ h0)) h
    · rw [if_neg hs] at h
      by_cases hc : is_custom_toolchain (q.name.getD "") = true
      · rw [if_pos hc] at h
        exact ih _ _ h0 h
      · rw [if_neg hc] at h
        cases h

/-- C2 (amended): the sentinel zero identity is protected by the
toolchain-identity policy: the resolved identity set always contains 0, a
unit whose fingerprint loads as 0 and whose name extracts a hash is always
in that policy keep set, and the sweep never removes an entry whose hash is
in the keep set.  (The age and size policies never read fingerprint
contents, so they can evict such a unit.) -/
theorem C2_sentinel_zero_kept :
    (∀ qs res, lookup_from_names qs = Except.ok res → 0 ∈ res) ∧
    (∀ (installed : List Nat) (fpDir : List FsEntry) (name : String)
      (sub : List FsEntry) (acc : Nat) (rem : Bool) (h : String),
      0 ∈ installed →
      FsEntry.dir name sub acc rem ∈ fpDir →
      Fingerprint.load sub = Except.ok 0 →
      hash_from_path_name name = some h →
      h ∈ load_all_fingerprints_built_with installed fpDir) ∧
    (∀ (keep : List String) (dry : Bool) (es : List FsEntry) (e : FsEntry) (h : String),
      e ∈ es → hash_from_path_name e.name = some h → h ∈ keep →
      e ∈ (remove_not_matching_in_a_dir keep dry es).1) := by
  refine ⟨?_, ?_, ?_⟩
  · intro qs res h
    exact lookupGo_zero qs _ res (by simp [insertNat]) h
  · intro installed fpDir name sub acc rem h h0 hmem hload hhash
    unfold load_all_fingerprints_built_with
    exact List.mem_filterMap.mpr ⟨_, hmem, by simp [hload, hhash, h0]⟩
  · intro keep dry es e h hmem hh hk
    induction es with
    | nil => cases hmem
    | cons e0 es ih =>
      rcases List.mem_cons.mp hmem with he | he
      · subst he
        simp only [remove_not_matching_in_a_dir, hh]
        simp [hk]
      · have hrec := ih he
        simp only [remove_not_matching_in_a_dir]
        cases hh0 : hash_from_path_name e0.name with
        | none => simp [hrec]
        | some h0 =>
          by_cases hk0 : h0 ∈ keep
          · simp [hk0, hrec]
          · cases e0 with
            | file n s a r rd pr =>
              cases dry <;> cases r <;> simp [hk0, hrec]
            | dir n sub a r =>
              cases dry <;> cases r <;> simp [hk0, hrec]
            | other n a => simp [hk0, hrec]

/-- C2 is false as stated for the age policy: a unit whose fingerprint
records the sentinel 0 but whose last access is older than the cutoff is
left out of the age keep set, and the sweep then deletes its artifact. -/
theorem C2_counterexample :
    Fingerprint.load [FsEntry.file "lib.json" 1 100 true true (some 0)] = Except.ok 0 ∧
    load_all_fingerprints_newer_than 50
      [FsEntry.dir "foo-aaaaaaaaaaaaaaaa"
        [FsEntry.file "lib.json" 1 100 true true (some 0)] 100 true] = [] ∧
    remove_not_matching_in_a_dir
      (load_all_fingerprints_newer_than 50
        [FsEntry.dir "foo-aaaaaaaaaaaaaaaa"
          [FsEntry.file "lib.json" 1 100 true true (some 0)] 100 true])
      false [FsEntry.file "foo-aaaaaaaaaaaaaaaa.rlib" 7 100 true true none] =
      ([], 7) := ⟨rfl, rfl, rfl⟩

/-- C2 witness: a unit whose fingerprint loads as 0 is in the
toolchain-policy keep set when 0 is in the identity set. -/
theorem C2_witness :
    "aaaaaaaaaaaaaaaa" ∈ load_all_fingerprints_built_with [0]
      [FsEntry.dir "x-aaaaaaaaaaaaaaaa"
        [FsEntry.file "f.json" 1 0 true true (some 0)] 0 true] :=
  C2_sentinel_zero_kept.2.1 [0] _ "x-aaaaaaaaaaaaaaaa"
    [FsEntry.file "f.json" 1 0 true true (some 0)] 0 true "aaaaaaaaaaaaaaaa"
    (List.mem_singleton.mpr rfl) (List.mem_singleton.mpr rfl) rfl rfl

/-- C3 (amended): the age keep set contains a hash exactly when some unit
directory bearing that hash was last used strictly more recently than the
cutoff; a unit whose elapsed time equals the cutoff is discarded. -/
theorem C3_age_policy_strict (cutoff : Nat) (fpDir : List FsEntry) (h : String) :
    h ∈ load_all_fingerprints_newer_than cutoff fpDir ↔
      ∃ name sub acc rem, FsEntry.dir name sub acc rem ∈ fpDir ∧
        last_used_time sub < cutoff ∧ hash_from_path_name name = some h := by
  unfold load_all_fingerprints_newer_than
  rw [List.mem_filterMap]
  constructor
  · rintro ⟨e, hmem, hf⟩
    cases e with
    | file n s a r rd pr => simp at hf
    | other n a => simp at hf
    | dir n sub a r =>
      by_cases hlt : last_used_time sub < cutoff
      · exact ⟨n, sub, a, r, hmem, hlt, by simpa [hlt] using hf⟩
      · simp [hlt] at hf
  · rintro ⟨n, sub, a, r, hmem, hlt, hh⟩
    exact ⟨FsEntry.dir n sub a r, hmem, by simp [hlt, hh]⟩

/-- C3 is false in its boundary part: with cutoff 5, a unit touched exactly
5 time units ago (elapsed time equal to the cutoff) is discarded, not
retained: the keep set comes out empty. -/
theorem C3_counterexample :
    last_used_time [FsEntry.file "lib.json" 1 5 true true none] = 5 ∧
    load_all_fingerprints_newer_than 5
      [FsEntry.dir "foo-aaaaaaaaaaaaaaaa"
        [FsEntry.file "lib.json" 1 5 true true none] 5 true] = [] := ⟨rfl, rfl⟩

/-- C3 witness: a unit strictly fresher than the cutoff is kept. -/
theorem C3_witness :
    "aaaaaaaaaaaaaaaa" ∈ load_all_fingerprints_newer_than 5
      [FsEntry.dir "foo-aaaaaaaaaaaaaaaa"
        [FsEntry.file "lib.json" 1 3 true true none] 3 true] :=
  (C3_age_policy_strict 5 _ _).mpr
    ⟨"foo-aaaaaaaaaaaaaaaa", [FsEntry.file "lib.json" 1 3 true true none], 3, true,
      List.mem_singleton.mpr rfl, by decide, rfl⟩

theorem bool_custom_helper (a b c : Bool) :
    (if a = true then false else if b = true then false else !c) = !(a || b || c) := by
  cases a <;> cases b <;> cases c <;> rfl

theorem custom_iff_not_standard (s : String) :
    is_custom_toolchain s = !standardAmendedC7 s :=
  bool_custom_helper _ _ _

theorem lookupGo_error_of_failing :
    ∀ (qs : List ToolchainQuery) (acc : List Nat) (q : ToolchainQuery),
      q ∈ qs → q.success = false → is_custom_toolchain (q.name.getD "") = false →
      ∃ msg, lookupGo qs acc = Except.error msg := by
  intro qs
  induction qs with
  | nil =>
    intro acc q hq
    cases hq
  | cons q0 rest ih =>
    intro acc q hq hfail hcust
    rcases List.mem_cons.mp hq with he | he
    · subst he
      simp only [lookupGo]
      rw [if_neg (by simp [hfail]), if_neg (by simp [hcust])]
      exact ⟨_, rfl⟩
    · simp only [lookupGo]
      by_cases hs : q0.success = true
      · rw [if_pos hs]
        exact ih _ q he hfail hcust
      · rw [if_neg hs]
        by_cases hc : is_custom_toolchain (q0.name.getD "") = true
        · rw [if_pos hc]
          exact ih _ q he hfail hcust
        · rw [if_neg hc]
          exact ⟨_, rfl⟩

theorem lookupGo_skip_custom :
    ∀ (qs : List ToolchainQuery) (acc : List Nat),
      (∀ q ∈ qs, q.success = false → is_custom_toolchain (q.name.getD "") = true) →
      lookupGo qs acc = lookupGo (qs.filter fun q => q.success) acc := by
  intro qs
  induction qs with
  | nil => intro acc h; rfl
  | cons q0 rest ih =>
    intro acc h
    by_cases hs : q0.success = true
    · rw [List.filter_cons_of_pos hs]
      simp only [lookupGo]
      rw [if_pos hs, if_pos hs]
      exact ih _ fun q hq => h q (List.mem_cons_of_mem _ hq)
    · have hc := h q0 (List.mem_cons_self _ _) (by simpa using hs)
      rw [List.filter_cons_of_neg (by simpa using hs)]
      simp only [lookupGo]
      rw [if_neg hs, if_pos hc]
      exact ih _ fun q hq => h q (List.mem_cons_of_mem _ hq)

/-- C7 (amended): when a toolchain version query fails the resolver
hard-errors exactly when the name looks standard in the sense of the code:
the empty name (bare default-compiler query), a channel name stable, beta
or nightly optionally followed by a dash suffix, or a name whose first
dash-separated segment is a 2-to-3-segment all-numeric version (a dash
suffix after the version, as in 1.22-x86_64-unknown-linux-gnu, is allowed);
failing queries with any other, custom name are silently skipped and
resolution continues with the remaining toolchains. -/
theorem C7_failure_classification :
    (∀ s : String, is_custom_toolchain s = !standardAmendedC7 s) ∧
    (∀ (qs : List ToolchainQuery) (q : ToolchainQuery),
      q ∈ qs → q.success = false → standardAmendedC7 (q.name.getD "") = true →
      ∃ msg, lookup_from_names qs = Except.error msg) ∧
    (∀ qs : List ToolchainQuery,
      (∀ q ∈ qs, q.success = false → standardAmendedC7 (q.name.getD "") = false) →
      lookup_from_names qs = lookup_from_names (qs.filter fun q => q.success)) := by
  refine ⟨custom_iff_not_standard, ?_, ?_⟩
  · intro qs q hq hfail hstd
    apply lookupGo_error_of_failing qs _ q hq hfail
    rw [custom_iff_not_standard, hstd]
    rfl
  · intro qs hall
    unfold lookup_from_names
    rw [List.filter_congr (by intro q hq; rfl)]
    apply lookupGo_skip_custom
    intro q hq hfail
    rw [custom_iff_not_standard, hall q hq hfail]
    rfl

/-- C7 is false as stated: the name 1.22-x86_64-unknown-linux-gnu does not
match the claimed standard shapes (it is neither a bare channel name with
optional dash suffix nor an all-numeric 2-to-3-segment version), yet the
code classifies it as standard and a failing query for it is a hard error;
the empty (default) name behaves the same way. -/
theorem C7_counterexample :
    standardClaimC7 "1.22-x86_64-unknown-linux-gnu" = false ∧
    is_custom_toolchain "1.22-x86_64-unknown-linux-gnu" = false ∧
    lookup_from_names
      [ToolchainQuery.mk (some "1.22-x86_64-unknown-linux-gnu") false 0 0 ""] =
      Except.error
        "failed to determine fingerprint for toolchain 1.22-x86_64-unknown-linux-gnu" ∧
    standardClaimC7 "" = false ∧
    is_custom_toolchain "" = false := ⟨rfl, rfl, rfl, rfl, rfl⟩

/-- C7 witness: a failing query for the standard name stable is a hard
error. -/
theorem C7_witness :
    ∃ msg, lookup_from_names [ToolchainQuery.mk (some "stable") false 0 0 ""] =
      Except.error msg :=
  C7_failure_classification.2.1 _ (ToolchainQuery.mk (some "stable") false 0 0 "")
    (List.mem_singleton.mpr rfl) rfl rfl

/-- C10: size accounting over a directory completes normally exactly when
every immediate entry whose name extracts to a hash is a regular file or a
directory; a hash-named entry of any other kind (for example a dangling
symlink) makes the accounting panic, rather than skip the entry or return
an error value. -/
theorem C10_sizing_panics (es : List FsEntry) (acc : List (String × Nat)) :
    (total_disk_space_by_hash_in_a_dir es acc).isSome = true ↔
      ∀ e ∈ es, (hash_from_path_name e.name).isSome = true → e.isOther = false := by
  induction es generalizing acc with
  | nil => simp [total_disk_space_by_hash_in_a_dir]
  | cons e es ih =>
    cases hh : hash_from_path_name e.name with
    | none =>
      simp only [total_disk_space_by_hash_in_a_dir, hh]
      rw [ih]
      constructor
      · intro hfa e2 he2 hs
        rcases List.mem_cons.mp he2 with he | he
        · subst he
          rw [hh] at hs
          cases hs
        · exact hfa e2 he hs
      · intro hfa e2 he2 hs
        exact hfa e2 (List.mem_cons_of_mem _ he2) hs
    | some h =>
      cases e with
      | file n s a r rd pr =>
        simp only [total_disk_space_by_hash_in_a_dir, hh]
        rw [ih]
        constructor
        · intro hfa e2 he2 hs
          rcases List.mem_cons.mp he2 with he | he
          · subst he
            rfl
          · exact hfa e2 he hs
        · intro hfa e2 he2 hs
          exact hfa e2 (List.mem_cons_of_mem _ he2) hs
      | dir n sub a r =>
        simp only [total_disk_space_by_hash_in_a_dir, hh]
        rw [ih]
        constructor
        · intro hfa e2 he2 hs
          rcases List.mem_cons.mp he2 with he | he
          · subst he
            rfl
          · exact hfa e2 he hs
        · intro hfa e2 he2 hs
          exact hfa e2 (List.mem_cons_of_mem _ he2) hs
      | other n a =>
        simp only [total_disk_space_by_hash_in_a_dir, hh]
        constructor
        · intro hx
          cases hx
        · intro hfa
          have := hfa (FsEntry.other n a) (List.mem_cons_self _ _) (by rw [hh]; rfl)
          cases this

/-- C10 witness: sizing succeeds on a directory whose only hash-named entry
is a regular file. -/
theorem C10_witness :
    (total_disk_space_by_hash_in_a_dir
      [FsEntry.file "x-aaaaaaaaaaaaaaaa" 5 0 true true none] []).isSome = true :=
  (C10_sizing_panics _ _).mpr (by
    intro e he hs
    rw [List.mem_singleton] at he
    subst he
    rfl)

theorem insertSorted_perm {α : Type} (le : α → α → Bool) (x : α) (l : List α) :
    (insertSorted le x l).Perm (x :: l) := by
  induction l with
  | nil => exact List.Perm.refl _
  | cons y ys ih =>
    simp only [insertSorted]
    by_cases hle : le x y = true
    · rw [if_pos hle]
    · rw [if_neg hle]
      exact (ih.cons y).trans (List.Perm.swap x y ys)

theorem sortByLe_perm {α : Type} (le : α → α → Bool) (l : List α) :
    (sortByLe le l).Perm l := by
  induction l with
  | nil => exact List.Perm.refl _
  | cons x xs ih => exact (insertSorted_perm le x _).trans (ih.cons x)

theorem sumSizes_nil : sumSizes [] = 0 := rfl

theorem sumSizes_cons (t : OrderEntry) (l : List OrderEntry) :
    sumSizes (t :: l) = t.size + sumSizes l := by
  simp [sumSizes]

theorem sumSizes_perm {a b : List OrderEntry} (h : a.Perm b) :
    sumSizes a = sumSizes b := by
  unfold sumSizes
  exact (h.map _).sum_eq

theorem planLoop_monotone (need : Nat) :
    ∀ (l : List OrderEntry) (acc : Nat), acc ≤ (planLoop need acc l).1 := by
  intro l
  induction l with
  | nil => intro acc; exact Nat.le_refl _
  | cons t rest ih =>
    intro acc
    by_cases hlt : acc + t.size < need
    · calc acc ≤ acc + t.size := Nat.le_add_right _ _
        _ ≤ (planLoop need (acc + t.size) rest).1 := ih _
        _ = (planLoop need acc (t :: rest)).1 := by simp [planLoop, hlt]
    · have heq : (planLoop need acc (t :: rest)).1 = (planLoop need acc rest).1 := by
        simp [planLoop, hlt]
      rw [heq]
      exact ih acc

theorem planLoop_lt (need : Nat) :
    ∀ (l : List OrderEntry) (acc : Nat), acc < need → (planLoop need acc l).1 < need := by
  intro l
  induction l with
  | nil => intro acc h; simpa [planLoop] using h
  | cons t rest ih =>
    intro acc h
    by_cases hlt : acc + t.size < need
    · have heq : (planLoop need acc (t :: rest)).1 = (planLoop need (acc + t.size) rest).1 := by
        simp [planLoop, hlt]
      rw [heq]
      exact ih _ hlt
    · have heq : (planLoop need acc (t :: rest)).1 = (planLoop need acc rest).1 := by
        simp [planLoop, hlt]
      rw [heq]
      exact ih _ h

theorem planLoop_kept (need : Nat) :
    ∀ (l : List OrderEntry) (acc : Nat) (t : OrderEntry),
      t ∈ (planLoop need acc l).2 →
      t ∈ l ∧ need ≤ (planLoop need acc l).1 + t.size := by
  intro l
  induction l with
  | nil => intro acc t ht; simp [planLoop] at ht
  | cons t0 rest ih =>
    intro acc t ht
    by_cases hlt : acc + t0.size < need
    · have h2 : (planLoop need acc (t0 :: rest)).2 = (planLoop need (acc + t0.size) rest).2 := by
        simp [planLoop, hlt]
      have h1 : (planLoop need acc (t0 :: rest)).1 = (planLoop need (acc + t0.size) rest).1 := by
        simp [planLoop, hlt]
      rw [h2] at ht
      obtain ⟨hmem, hle⟩ := ih _ t ht
      exact ⟨List.mem_cons_of_mem _ hmem, by rw [h1]; exact hle⟩
    · have h2 : (planLoop need acc (t0 :: rest)).2 = t0 :: (planLoop need acc rest).2 := by
        simp [planLoop, hlt]
      have h1 : (planLoop need acc (t0 :: rest)).1 = (planLoop need acc rest).1 := by
        simp [planLoop, hlt]
      rw [h2] at ht
      rw [h1]
      rcases List.mem_cons.mp ht with he | he
      · subst he
        refine ⟨List.mem_cons_self _ _, ?_⟩
        have hmono := planLoop_monotone need rest acc
        omega
      · obtain ⟨hmem, hle⟩ := ih acc t he
        exact ⟨List.mem_cons_of_mem _ hmem, hle⟩

theorem planLoop_split (need : Nat) :
    ∀ (l : List OrderEntry) (acc : Nat),
      ∃ ev : List OrderEntry, l.Perm (ev ++ (planLoop need acc l).2) ∧
        (planLoop need acc l).1 = acc + sumSizes ev := by
  intro l
  induction l with
  | nil =>
    intro acc
    exact ⟨[], by simp [planLoop], by simp [planLoop, sumSizes]⟩
  | cons t rest ih =>
    intro acc
    by_cases hlt : acc + t.size < need
    · obtain ⟨ev, hperm, hsum⟩ := ih (acc + t.size)
      have h1 : (planLoop need acc (t :: rest)).1 = (planLoop need (acc + t.size) rest).1 := by
        simp [planLoop, hlt]
      have h2 : (planLoop need acc (t :: rest)).2 = (planLoop need (acc + t.size) rest).2 := by
        simp [planLoop, hlt]
      refine ⟨t :: ev, ?_, ?_⟩
      · rw [h2]
        exact hperm.cons t
      · rw [h1, hsum, sumSizes_cons]
        omega
    · obtain ⟨ev, hperm, hsum⟩ := ih acc
      have h1 : (planLoop need acc (t :: rest)).1 = (planLoop need acc rest).1 := by
        simp [planLoop, hlt]
      have h2 : (planLoop need acc (t :: rest)).2 = t :: (planLoop need acc rest).2 := by
        simp [planLoop, hlt]
      refine ⟨ev, ?_, by rw [h1]; exact hsum⟩
      rw [h2]
      exact (hperm.cons t).trans List.perm_middle.symm

theorem mapGet_bumpEntry (m : List (String × Nat)) (h h2 : String) (s : Nat) :
    mapGet (bumpEntry m h s) h2 = mapGet m h2 + (if h = h2 then s else 0) := by
  induction m with
  | nil =>
    simp only [bumpEntry, mapGet]
    by_cases he : h = h2
    · simp [he]
    · simp [he]
  | cons kv rest ih =>
    obtain ⟨k, v⟩ := kv
    simp only [bumpEntry]
    by_cases hk : k = h
    · subst hk
      rw [if_pos rfl]
      simp only [mapGet]
      by_cases he : k = h2
      · simp [he]
      · simp [he]
    · rw [if_neg hk]
      simp only [mapGet]
      by_cases he : k = h2
      · have hne : ¬ h = h2 := fun hx => hk (he.trans hx.symm)
        simp [he, hne]
      · simp [he, ih]

theorem tdsbh_mapGet :
    ∀ (es : List FsEntry) (m m2 : List (String × Nat)),
      total_disk_space_by_hash_in_a_dir es m = some m2 →
      ∀ h, mapGet m2 h = mapGet m h + hashTotal h es := by
  intro es
  induction es with
  | nil =>
    intro m m2 hm h
    cases hm
    simp [hashTotal]
  | cons e es ih =>
    intro m m2 hm h
    cases hh : hash_from_path_name e.name with
    | none =>
      simp only [total_disk_space_by_hash_in_a_dir, hh] at hm
      rw [ih _ _ hm h]
      simp [hashTotal, hh]
    | some h0 =>
      cases e with
      | file n s a r rd pr =>
        simp only [total_disk_space_by_hash_in_a_dir, hh] at hm
        rw [ih _ _ hm h, mapGet_bumpEntry]
        simp only [hashTotal, hh, entrySize, Option.some.injEq]
        by_cases he : h0 = h <;> simp [he] <;> omega
      | dir n sub a r =>
        simp only [total_disk_space_by_hash_in_a_dir, hh] at hm
        rw [ih _ _ hm h, mapGet_bumpEntry]
        simp only [hashTotal, hh, entrySize, Option.some.injEq]
        by_cases he : h0 = h <;> simp [he] <;> omega
      | other n a =>
        simp only [total_disk_space_by_hash_in_a_dir, hh] at hm
        cases hm

theorem profile_mapGet (p : Profile) (m : List (String × Nat))
    (hm : total_disk_space_in_a_profile p = some m) (h : String) :
    mapGet m h = profHashTotal p h := by
  unfold total_disk_space_in_a_profile at hm
  cases h1 : total_disk_space_by_hash_in_a_dir p.fingerprintDir [] with
  | none => rw [h1] at hm; cases hm
  | some m1 =>
    rw [h1] at hm
    dsimp only [] at hm
    cases h2 : total_disk_space_by_hash_in_a_dir p.buildDir m1 with
    | none => rw [h2] at hm; cases hm
    | some m2 =>
      rw [h2] at hm
      dsimp only [] at hm
      cases h3 : total_disk_space_by_hash_in_a_dir p.depsDir m2 with
      | none => rw [h3] at hm; cases hm
      | some m3 =>
        rw [h3] at hm
        dsimp only [] at hm
        cases hn : p.nativeDir with
        | none =>
          rw [hn] at hm
          dsimp only [] at hm
          have g1 := tdsbh_mapGet _ _ _ h1 h
          have g2 := tdsbh_mapGet _ _ _ h2 h
          have g3 := tdsbh_mapGet _ _ _ h3 h
          have g5 := tdsbh_mapGet _ _ _ hm h
          simp only [mapGet] at g1
          simp only [profHashTotal, hn]
          omega
        | some nes =>
          rw [hn] at hm
          dsimp only [] at hm
          cases h4 : total_disk_space_by_hash_in_a_dir nes m3 with
          | none => rw [h4] at hm; cases hm
          | some m4 =>
            rw [h4] at hm
            dsimp only [] at hm
            have g1 := tdsbh_mapGet _ _ _ h1 h
            have g2 := tdsbh_mapGet _ _ _ h2 h
            have g3 := tdsbh_mapGet _ _ _ h3 h
            have g4 := tdsbh_mapGet _ _ _ h4 h
            have g5 := tdsbh_mapGet _ _ _ hm h
            simp only [mapGet] at g1
            simp only [profHashTotal, hn]
            omega

theorem profFreed_snd (p : Profile) (keep : List String) (dry : Bool) :
    (remove_not_built_with_in_a_profile p keep dry).2 = profFreedSum p keep := by
  simp only [remove_not_built_with_in_a_profile, profFreedSum]
  cases p.nativeDir <;> simp [remove_snd_eq_freedSum]

theorem freedSum_split (keep : List String) (h : String) (hk : h ∉ keep) :
    ∀ es : List FsEntry,
      freedSum keep es =
        hashTotal h es +
          freedSum keep
            (es.filter fun e => decide (hash_from_path_name e.name ≠ some h)) := by
  intro es
  induction es with
  | nil => rfl
  | cons e es ih =>
    cases hh : hash_from_path_name e.name with
    | none =>
      rw [List.filter_cons_of_pos (by simp [hh])]
      simp only [freedSum, hashTotal, hh]
      simp only [(by simp : ¬ (none : Option String) = some h), if_false]
      omega
    | some h0 =>
      by_cases he : h0 = h
      · subst he
        rw [List.filter_cons_of_neg (by simp [hh])]
        simp only [freedSum, hashTotal, hh, Option.some.injEq, eq_self_iff_true, if_true]
        rw [if_neg hk]
        omega
      · rw [List.filter_cons_of_pos (by simp [hh, he])]
        simp only [freedSum, hashTotal, hh, Option.some.injEq]
        rw [if_neg he]
        by_cases hki : h0 ∈ keep
        · simp only [if_pos hki]
          omega
        · simp only [if_neg hki]
          omega

theorem hashTotal_filter_ne (h h2 : String) (hne : h2 ≠ h) :
    ∀ es : List FsEntry,
      hashTotal h2 (es.filter fun e => decide (hash_from_path_name e.name ≠ some h)) =
        hashTotal h2 es := by
  intro es
  induction es with
  | nil => rfl
  | cons e es ih =>
    cases hh : hash_from_path_name e.name with
    | none =>
      rw [List.filter_cons_of_pos (by simp [hh])]
      simp only [hashTotal, hh, ih]
    | some h0 =>
      by_cases he : h0 = h
      · subst he
        rw [List.filter_cons_of_neg (by simp [hh])]
        simp only [hashTotal, hh, Option.some.injEq, ih]
        rw [if_neg (fun hx => hne hx.symm)]
        omega
      · rw [List.filter_cons_of_pos (by simp [hh, he])]
        simp only [hashTotal, hh, ih]

theorem sumHashTotals_filter (h : String) :
    ∀ S : List String, h ∉ S → ∀ es : List FsEntry,
      sumHashTotals
          (es.filter fun e => decide (hash_from_path_name e.name ≠ some h)) S =
        sumHashTotals es S := by
  intro S
  induction S with
  | nil => intro _ es; rfl
  | cons h2 S2 ih =>
    intro hS es
    have hne : h2 ≠ h := fun hx => hS (hx ▸ List.mem_cons_self _ _)
    simp only [sumHashTotals]
    rw [hashTotal_filter_ne h h2 hne, ih (fun hx => hS (List.mem_cons_of_mem _ hx))]

theorem sumHashTotals_le_freedSum (keep : List String) :
    ∀ S : List String, S.Nodup → (∀ h ∈ S, h ∉ keep) →
      ∀ es : List FsEntry, sumHashTotals es S ≤ freedSum keep es := by
  intro S
  induction S with
  | nil => intro _ _ es; exact Nat.zero_le _
  | cons h S2 ih =>
    intro hnd hnk es
    have hps := List.nodup_cons.mp hnd
    simp only [sumHashTotals]
    rw [freedSum_split keep h (hnk h (List.mem_cons_self _ _)) es]
    rw [← sumHashTotals_filter h S2 hps.1 es]
    have hrec := ih hps.2 (fun h2 hh2 => hnk h2 (List.mem_cons_of_mem _ hh2))
      (es.filter fun e => decide (hash_from_path_name e.name ≠ some h))
    omega

theorem sumProf_eq (p : Profile) :
    ∀ S : List String,
      sumProfHashTotals p S =
        sumHashTotals p.buildDir S + sumHashTotals p.depsDir S +
          (match p.nativeDir with
           | some es => sumHashTotals es S
           | none => 0) +
          sumHashTotals p.rootEntries S + sumHashTotals p.fingerprintDir S := by
  intro S
  induction S with
  | nil => cases p.nativeDir <;> rfl
  | cons h S2 ih =>
    cases hn : p.nativeDir with
    | none =>
      simp only [sumProfHashTotals, sumHashTotals, profHashTotal, hn] at ih ⊢
      omega
    | some nes =>
      simp only [sumProfHashTotals, sumHashTotals, profHashTotal, hn] at ih ⊢
      omega

theorem sumProf_le_profFreed (p : Profile) (keep : List String) (S : List String)
    (hnd : S.Nodup) (hnk : ∀ h ∈ S, h ∉ keep) :
    sumProfHashTotals p S ≤ profFreedSum p keep := by
  rw [sumProf_eq]
  unfold profFreedSum
  have h1 := sumHashTotals_le_freedSum keep S hnd hnk p.buildDir
  have h2 := sumHashTotals_le_freedSum keep S hnd hnk p.depsDir
  have h3 := sumHashTotals_le_freedSum keep S hnd hnk p.rootEntries
  have h4 := sumHashTotals_le_freedSum keep S hnd hnk p.fingerprintDir
  cases hn : p.nativeDir with
  | none =>
    dsimp only []
    omega
  | some nes =>
    have h5 := sumHashTotals_le_freedSum keep S hnd hnk nes
    dsimp only []
    omega

theorem buildOrder_idx_bound :
    ∀ (ps : List Profile) (start : Nat) (order : List OrderEntry),
      buildOrderGo start ps = some order →
      ∀ t ∈ order, start ≤ t.dirIdx ∧ t.dirIdx < start + ps.length := by
  intro ps
  induction ps with
  | nil =>
    intro start order h t ht
    cases h
    cases ht
  | cons p ps ih =>
    intro start order h t ht
    simp only [buildOrderGo] at h
    cases h1 : total_disk_space_in_a_profile p with
    | none => rw [h1] at h; cases h
    | some sizes =>
      rw [h1] at h
      dsimp only [] at h
      cases h2 : buildOrderGo (start + 1) ps with
      | none => rw [h2] at h; cases h
      | some rest =>
        rw [h2] at h
        dsimp only [] at h
        cases h
        rcases List.mem_append.mp ht with hm | hm
        · obtain ⟨x, hx, rfl⟩ := List.mem_map.mp hm
          simp only [List.length_cons]
          omega
        · have := ih (start + 1) rest h2 t hm
          simp only [List.length_cons]
          omega

theorem buildOrder_filter :
    ∀ (ps : List Profile) (start : Nat) (order : List OrderEntry),
      buildOrderGo start ps = some order →
      ∀ (k : Nat) (p : Profile), ps.get? k = some p →
        ∃ m, total_disk_space_in_a_profile p = some m ∧
          tuplesFor order (start + k) =
            (load_all_fingerprints_by_time p.fingerprintDir).map
              (fun x => OrderEntry.mk x.1 (mapGet m x.2) (start + k) x.2) := by
  intro ps
  induction ps with
  | nil =>
    intro start order h k p hk
    cases hk
  | cons p0 ps ih =>
    intro start order h k p hk
    simp only [buildOrderGo] at h
    cases h1 : total_disk_space_in_a_profile p0 with
    | none => rw [h1] at h; cases h
    | some sizes =>
      rw [h1] at h
      dsimp only [] at h
      cases h2 : buildOrderGo (start + 1) ps with
      | none => rw [h2] at h; cases h
      | some rest =>
        rw [h2] at h
        dsimp only [] at h
        cases h
        cases k with
        | zero =>
          have hp : p0 = p := by
            simpa using hk
          subst hp
          refine ⟨sizes, h1, ?_⟩
          rw [Nat.add_zero]
          unfold tuplesFor
          rw [List.filter_append]
          have hmap : ((load_all_fingerprints_by_time p0.fingerprintDir).map
                (fun x => OrderEntry.mk x.1 (mapGet sizes x.2) start x.2)).filter
              (fun t => decide (t.dirIdx = start)) =
              (load_all_fingerprints_by_time p0.fingerprintDir).map
                (fun x => OrderEntry.mk x.1 (mapGet sizes x.2) start x.2) := by
            apply List.filter_eq_self.mpr
            intro t ht
            obtain ⟨x, hx, rfl⟩ := List.mem_map.mp ht
            simp
          have hrest : rest.filter (fun t => decide (t.dirIdx = start)) = [] := by
            apply List.filter_eq_nil.mpr
            intro t ht
            have := buildOrder_idx_bound ps (start + 1) rest h2 t ht
            simp only [decide_eq_true_eq]
            omega
          rw [hmap, hrest, List.append_nil]
        | succ k2 =>
          have hk2 : ps.get? k2 = some p := hk
          obtain ⟨m, hm, heq⟩ := ih (start + 1) rest h2 k2 p hk2
          refine ⟨m, hm, ?_⟩
          have hidx : start + (k2 + 1) = (start + 1) + k2 := by omega
          rw [hidx]
          unfold tuplesFor at heq ⊢
          rw [List.filter_append]
          have hmap : ((load_all_fingerprints_by_time p0.fingerprintDir).map
                (fun x => OrderEntry.mk x.1 (mapGet sizes x.2) start x.2)).filter
              (fun t => decide (t.dirIdx = start + 1 + k2)) = [] := by
            apply List.filter_eq_nil.mpr
            intro t ht
            obtain ⟨x, hx, rfl⟩ := List.mem_map.mp ht
            simp only [decide_eq_true_eq]
            omega
          rw [hmap, List.nil_append]
          exact heq

theorem keepFor_eq (kept : List OrderEntry) (i : Nat) :
    keepFor kept i = (tuplesFor kept i).map OrderEntry.hash := by
  induction kept with
  | nil => rfl
  | cons t ts ih =>
    simp only [keepFor, tuplesFor, List.filterMap_cons, List.filter_cons]
    by_cases ht : t.dirIdx = i
    · simp [ht, List.map_cons]
      simpa [keepFor, tuplesFor] using ih
    · simp [ht]
      simpa [keepFor, tuplesFor] using ih

theorem sumSizes_eq_sumProf (p : Profile) :
    ∀ l : List OrderEntry,
      (∀ t ∈ l, t.size = profHashTotal p t.hash) →
      sumSizes l = sumProfHashTotals p (l.map OrderEntry.hash) := by
  intro l
  induction l with
  | nil => intro _; rfl
  | cons t ts ih =>
    intro hall
    rw [sumSizes_cons, List.map_cons]
    simp only [sumProfHashTotals]
    rw [hall t (List.mem_cons_self _ _), ih (fun t2 ht2 => hall t2 (List.mem_cons_of_mem _ ht2))]

theorem sumSizes_filter_split (l : List OrderEntry) (p : OrderEntry → Bool) :
    sumSizes l = sumSizes (l.filter p) + sumSizes (l.filter fun t => !p t) := by
  induction l with
  | nil => rfl
  | cons t ts ih =>
    by_cases hp : p t = true
    · rw [List.filter_cons_of_pos hp, List.filter_cons_of_neg (by simp [hp])]
      rw [sumSizes_cons, sumSizes_cons]
      omega
    · rw [List.filter_cons_of_neg hp, List.filter_cons_of_pos (by simp [hp] )]
      rw [sumSizes_cons, sumSizes_cons]
      omega

theorem sumSizes_sublist_le {l1 l2 : List OrderEntry} (h : l1.Sublist l2) :
    sumSizes l1 ≤ sumSizes l2 := by
  induction h with
  | slnil => exact Nat.le_refl _
  | cons t h ih =>
    rw [sumSizes_cons]
    omega
  | cons₂ t h ih =>
    rw [sumSizes_cons, sumSizes_cons]
    omega

theorem sweep_ge :
    ∀ (ps : List Profile) (start : Nat) (kept ev : List OrderEntry),
      (∀ t ∈ ev, start ≤ t.dirIdx ∧ t.dirIdx < start + ps.length) →
      (∀ (k : Nat) (p : Profile), ps.get? k = some p →
        sumSizes (tuplesFor ev (start + k)) ≤
          profFreedSum p (keepFor kept (start + k))) →
      sumSizes ev ≤ (sweepProfiles kept false start ps).2 := by
  intro ps
  induction ps with
  | nil =>
    intro start kept ev hb _
    have hev : ev = [] := by
      cases ev with
      | nil => rfl
      | cons t ts =>
        have := hb t (List.mem_cons_self _ _)
        simp only [List.length_nil] at this
        omega
    subst hev
    exact Nat.le_refl _
  | cons p ps ih =>
    intro start kept ev hb hp
    have hsplit := sumSizes_filter_split ev (fun t => decide (t.dirIdx = start))
    have h0 : sumSizes (tuplesFor ev start) ≤ profFreedSum p (keepFor kept start) := by
      have := hp 0 p rfl
      rwa [Nat.add_zero] at this
    have hb2 : ∀ t ∈ ev.filter (fun t => !decide (t.dirIdx = start)),
        start + 1 ≤ t.dirIdx ∧ t.dirIdx < (start + 1) + ps.length := by
      intro t ht
      have hmem := List.mem_filter.mp ht
      have hbd := hb t hmem.1
      have hneq : ¬ t.dirIdx = start := by simpa using hmem.2
      simp only [List.length_cons] at hbd
      omega
    have hp2 : ∀ (k : Nat) (p2 : Profile), ps.get? k = some p2 →
        sumSizes (tuplesFor (ev.filter fun t => !decide (t.dirIdx = start))
            ((start + 1) + k)) ≤
          profFreedSum p2 (keepFor kept ((start + 1) + k)) := by
      intro k p2 hk
      have hsub : (tuplesFor (ev.filter fun t => !decide (t.dirIdx = start))
          ((start + 1) + k)).Sublist (tuplesFor ev ((start + 1) + k)) := by
        unfold tuplesFor
        exact List.Sublist.filter _ (List.filter_sublist ev)
      have hmono := sumSizes_sublist_le hsub
      have hineq := hp (k + 1) p2 hk
      have harith : start + (k + 1) = (start + 1) + k := by omega
      rw [harith] at hineq
      omega
    have hrec := ih (start + 1) kept _ hb2 hp2
    have hsw : (sweepProfiles kept false start (p :: ps)).2 =
        (remove_not_built_with_in_a_profile p (keepFor kept start) false).2 +
          (sweepProfiles kept false (start + 1) ps).2 := rfl
    rw [hsw, profFreed_snd]
    unfold tuplesFor at h0
    omega

theorem remove_exact (keep : List String) :
    ∀ es : List FsEntry, allRemovable es = true →
      sizeList (remove_not_matching_in_a_dir keep false es).1 +
        (remove_not_matching_in_a_dir keep false es).2 = sizeList es := by
  intro es
  induction es with
  | nil => intro _; rfl
  | cons e es ih =>
    intro hrem
    have hall : e.removable = true ∧ allRemovable es = true := by
      simp only [allRemovable, List.all_cons, Bool.and_eq_true] at hrem
      exact hrem
    have hrec := ih hall.2
    simp only [remove_not_matching_in_a_dir]
    cases hh : hash_from_path_name e.name with
    | none =>
      dsimp only []
      simp only [sizeList]
      omega
    | some h =>
      dsimp only []
      by_cases hk : h ∈ keep
      · simp only [if_pos hk, sizeList]
        omega
      · rw [if_neg hk]
        cases e with
        | file n s a r rd pr =>
          have hr : r = true := hall.1
          subst hr
          simp only [Bool.false_eq_true, if_false, if_true, sizeList, entrySize]
          omega
        | dir n sub a r =>
          have hr : r = true := hall.1
          subst hr
          simp only [Bool.false_eq_true, if_false, if_true, sizeList, entrySize]
          omega
        | other n a =>
          simp only [sizeList, entrySize]
          omega

theorem profile_exact (p : Profile) (keep : List String)
    (hrem : profAllRemovable p = true) :
    profTotal (remove_not_built_with_in_a_profile p keep false).1 +
      (remove_not_built_with_in_a_profile p keep false).2 = profTotal p := by
  unfold profAllRemovable at hrem
  simp only [Bool.and_eq_true] at hrem
  obtain ⟨⟨⟨⟨hf, hbu⟩, hd⟩, hn⟩, hr⟩ := hrem
  have gf := remove_exact keep p.fingerprintDir hf
  have gb := remove_exact keep p.buildDir hbu
  have gd := remove_exact keep p.depsDir hd
  have gr := remove_exact keep p.rootEntries hr
  cases hne : p.nativeDir with
  | none =>
    simp only [remove_not_built_with_in_a_profile, profTotal, hne]
    omega
  | some nes =>
    rw [hne] at hn
    have gn := remove_exact keep nes hn
    simp only [remove_not_built_with_in_a_profile, profTotal, hne]
    omega

theorem sweep_exact :
    ∀ (ps : List Profile) (start : Nat) (kept : List OrderEntry),
      (∀ p ∈ ps, profAllRemovable p = true) →
      ((sweepProfiles kept false start ps).1.map profTotal).sum +
        (sweepProfiles kept false start ps).2 = (ps.map profTotal).sum := by
  intro ps
  induction ps with
  | nil => intro _ _ _; rfl
  | cons p ps ih =>
    intro start kept hrem
    have hp := profile_exact p (keepFor kept start) (hrem p (List.mem_cons_self _ _))
    have hr := ih (start + 1) kept (fun p2 hp2 => hrem p2 (List.mem_cons_of_mem _ hp2))
    simp only [sweepProfiles, List.map_cons, List.sum_cons]
    omega

/-- C4 (amended): the size policy is a no-op (0 bytes freed, tree
unchanged) when the starting total already fits the target; and when the
target is exceeded then, provided the sizing does not panic, unit hashes
are unique within each profile, every entry can actually be deleted, and
the units jointly cover the excess, a real run leaves at most the target
plus the size of a single unit on disk.  When bytes not attributable to
any unit exceed the budget the bound can be missed (see the
counterexample). -/
theorem C4_size_policy_bound (root : Root) (target : Nat) :
    (rootTotal root ≤ target →
      remove_older_until_fits root target false = some (0, root)) ∧
    (∀ (order : List OrderEntry) (freed : Nat) (root2 : Root),
      target < rootTotal root →
      buildOrderGo 0 root.profiles = some order →
      remove_older_until_fits root target false = some (freed, root2) →
      (∀ p ∈ root.profiles,
        ((load_all_fingerprints_by_time p.fingerprintDir).map Prod.snd).Nodup) →
      (∀ p ∈ root.profiles, profAllRemovable p = true) →
      rootTotal root - target ≤ sumSizes order →
      ∃ s ∈ order.map OrderEntry.size, rootTotal root2 ≤ target + s) := by
  constructor
  · intro hle
    unfold remove_older_until_fits
    rw [if_pos hle]
  · intro order freed root2 hlt horder hrun hnodup hrem hcover
    have hrun2 : freed = (sweepProfiles (planLoop (rootTotal root - target) 0
          ((sortByLe orderLe order).reverse)).2 false 0 root.profiles).2 ∧
        root2 = ⟨(sweepProfiles (planLoop (rootTotal root - target) 0
          ((sortByLe orderLe order).reverse)).2 false 0 root.profiles).1,
          root.untracked⟩ := by
      unfold remove_older_until_fits at hrun
      rw [if_neg (by omega), horder] at hrun
      dsimp only [] at hrun
      injection hrun with h
      rw [Prod.mk.injEq] at h
      exact ⟨h.1.symm, h.2.symm⟩
    obtain ⟨hfreed, hroot2⟩ := hrun2
    set need := rootTotal root - target with hneed
    set L := (sortByLe orderLe order).reverse with hLdef
    set kept := (planLoop need 0 L).2 with hkept
    set removed := (planLoop need 0 L).1 with hremoved
    have hLperm : L.Perm order := (List.reverse_perm _).trans (sortByLe_perm orderLe order)
    obtain ⟨ev, hevperm, hevsum⟩ := planLoop_split need L 0
    have horderperm : order.Perm (ev ++ kept) := hLperm.symm.trans hevperm
    have hneedpos : 0 < need := by omega
    have hremlt : removed < need := planLoop_lt need L 0 hneedpos
    have hkne : kept ≠ [] := by
      intro hnil
      rw [hnil, List.append_nil] at horderperm
      have hse : sumSizes order = sumSizes ev := sumSizes_perm horderperm
      omega
    have ht0mem : ∃ t0, t0 ∈ kept := by
      cases hkc : kept with
      | nil => exact absurd hkc hkne
      | cons a b => exact ⟨a, by exact List.mem_cons_self _ _⟩
    obtain ⟨t0, ht0⟩ := ht0mem
    obtain ⟨ht0L, ht0bound⟩ := planLoop_kept need L 0 t0 ht0
    have ht0order : t0 ∈ order := hLperm.mem_iff.mp ht0L
    have hper : ∀ (k : Nat) (p : Profile), root.profiles.get? k = some p →
        sumSizes (tuplesFor ev (0 + k)) ≤ profFreedSum p (keepFor kept (0 + k)) := by
      intro k p hk
      rw [Nat.zero_add]
      obtain ⟨m, hm, htup⟩ := buildOrder_filter root.profiles 0 order horder k p hk
      rw [Nat.zero_add] at htup
      have hpmem : p ∈ root.profiles := List.get?_mem hk
      have hfperm : (tuplesFor order k).Perm (tuplesFor ev k ++ tuplesFor kept k) := by
        unfold tuplesFor
        rw [← List.filter_append]
        exact horderperm.filter _
      have hsize : ∀ t ∈ tuplesFor order k, t.size = profHashTotal p t.hash := by
        intro t ht
        rw [htup] at ht
        obtain ⟨x, hx, rfl⟩ := List.mem_map.mp ht
        exact profile_mapGet p m hm x.2
      have hhashes : (tuplesFor order k).map OrderEntry.hash =
          (load_all_fingerprints_by_time p.fingerprintDir).map Prod.snd := by
        rw [htup, List.map_map]
        rfl
      have hnd : ((tuplesFor order k).map OrderEntry.hash).Nodup := by
        rw [hhashes]
        exact hnodup p hpmem
      have hndsplit : ((tuplesFor ev k).map OrderEntry.hash ++
          (tuplesFor kept k).map OrderEntry.hash).Nodup := by
        rw [← List.map_append]
        exact ((hfperm.map OrderEntry.hash).nodup_iff).mp hnd
      have hndev : ((tuplesFor ev k).map OrderEntry.hash).Nodup :=
        (List.nodup_append.mp hndsplit).1
      have hdisj : ∀ h ∈ (tuplesFor ev k).map OrderEntry.hash, h ∉ keepFor kept k := by
        intro h hh
        rw [keepFor_eq]
        exact (List.nodup_append.mp hndsplit).2.2 hh
      have hsizeev : ∀ t ∈ tuplesFor ev k, t.size = profHashTotal p t.hash := by
        intro t ht
        exact hsize t (hfperm.mem_iff.mpr (List.mem_append_left _ ht))
      rw [sumSizes_eq_sumProf p (tuplesFor ev k) hsizeev]
      exact sumProf_le_profFreed p (keepFor kept k) _ hndev hdisj
    have hbound : ∀ t ∈ ev, 0 ≤ t.dirIdx ∧ t.dirIdx < 0 + root.profiles.length := by
      intro t ht
      exact buildOrder_idx_bound root.profiles 0 order horder t
        (horderperm.mem_iff.mpr (List.mem_append_left _ ht))
    have hge := sweep_ge root.profiles 0 kept ev hbound hper
    have hex := sweep_exact root.profiles 0 kept hrem
    have hr2 : rootTotal root2 + freed = rootTotal root := by
      rw [hroot2, hfreed]
      unfold rootTotal
      dsimp only []
      omega
    refine ⟨t0.size, List.mem_map_of_mem _ ht0order, ?_⟩
    have hfge : sumSizes ev ≤ freed := by
      rw [hfreed]
      exact hge
    omega

/-- C4 is false as stated: in c4Root, whose only unit is 10 bytes but which
holds 100 bytes of artifacts with no extractable identity, a real run with
target 0 evicts the unit, frees 10 bytes and leaves 100 bytes on disk,
which exceeds the target plus the size of every single unit. -/
theorem C4_counterexample :
    remove_older_until_fits c4Root 0 false = some (10, c4RootAfter) ∧
    buildOrderGo 0 c4Root.profiles =
      some [OrderEntry.mk 50 10 0 "aaaaaaaaaaaaaaaa"] ∧
    rootTotal c4RootAfter = 100 ∧
    ∀ s ∈ ([OrderEntry.mk 50 10 0 "aaaaaaaaaaaaaaaa"].map OrderEntry.size),
      0 + s < rootTotal c4RootAfter :=
  ⟨rfl, rfl, rfl, by decide⟩

/-- C4 witness: on c4WitnessRoot with target 4 the amended bound applies
and yields a unit size s with the remaining total at most 4 + s. -/
theorem C4_witness :
    ∃ s ∈ ([OrderEntry.mk 50 10 0 "aaaaaaaaaaaaaaaa"].map OrderEntry.size),
      rootTotal c4WitnessRoot ≤ 4 + s :=
  (C4_size_policy_bound c4WitnessRoot 4).2
    [OrderEntry.mk 50 10 0 "aaaaaaaaaaaaaaaa"] 0 c4WitnessRoot
    (by decide) rfl rfl (by decide) (by decide) (by decide)
